import Mathlib

/-!
Shallow embedding of the gwalk chunked tile-world (src/src/main.go, the
canonical of the two near-duplicate sources) and proofs about it.

Modelling conventions:
* Go `int`/`int32` values are modelled as `Int`; Go `%` and `/` on integers
  truncate toward zero, so they are embedded as `Int.tmod` / `Int.tdiv`.
* Go `float32` values are modelled as exact rationals (`Rat`); IEEE rounding
  is outside the model.  Where the classifier's claim needs NaN, a float value
  is an `Option Rat` (`none` = NaN) with the IEEE comparison (`NaN < x` and
  `x < NaN` are both false).
* The third-party Perlin noise generator (`github.com/KEINOS/go-noise`) is not
  part of the repository; it is modelled as an arbitrary pure function
  `Noise : Int → Rat → Rat → Rat` of the seed and the two sample coordinates
  (its documented contract: deterministic in the seed).
* Go slice indexing (`m.data[i]`) panics out of range; fallible operations
  return `Option`, `none` standing for a runtime panic.
* The chunk cache (a Go `map`) is modelled as an association list with
  lookup of the most recently inserted binding first.
-/

namespace GWalk

/-- `Vector2Int32` from the source: a pair of signed integers, used for
tile coordinates, chunk coordinates and in-chunk offsets. -/
structure Coord where
  X : Int
  Y : Int
deriving DecidableEq, Repr

/-- The process-wide `gameSettings` record (the fields the core logic reads). -/
structure Settings where
  tileW : Int
  tileH : Int
  seed : Int
  scaleX : Rat
  scaleY : Rat
  chunkW : Int
  chunkH : Int
  waterLevel : Rat
deriving DecidableEq, Repr

/-- The configured values: TILE_SIZE (5,5), RNG_SEED 256, MAP_SCALAR (100,100),
CHUNK_SIZE (25,25), WATER_LEVEL 0.4. -/
def gameSettings : Settings :=
  { tileW := 5, tileH := 5, seed := 256, scaleX := 100, scaleY := 100
    chunkW := 25, chunkH := 25, waterLevel := 2/5 }

/-- A float32 value: `none` is NaN, `some q` a finite value modelled exactly. -/
abbrev FVal := Option Rat

/-- IEEE `<` on float values: any comparison with NaN is false. -/
def FVal.flt (a b : FVal) : Bool :=
  match a, b with
  | some x, some y => decide (x < y)
  | _, _ => false

/-- `TerrainType` enumeration from the source. -/
inductive TerrainType where
  | UndefinedTerrain
  | Sand
  | Gravel
  | Dirt
  | LowGrass
  | HighGrass
  | Forest
  | Mountain
deriving DecidableEq, Repr

/-- `Tile` struct: terrain category, waterlogged flag, raw sampled height. -/
structure Tile where
  terrain : TerrainType
  waterlogged : Bool
  height : Rat
deriving DecidableEq, Repr

/-- The Go zero value of `Tile`: terrain 0 (= UndefinedTerrain), false, 0.0. -/
instance : Inhabited Tile := ⟨⟨.UndefinedTerrain, false, 0⟩⟩

/-- `heightBoundaryToTile`: ordered list of (exclusive upper bound, terrain). -/
def heightBoundaryToTile : List (Rat × TerrainType) :=
  [(42/100, .Sand), (45/100, .Gravel), (47/100, .Dirt), (55/100, .LowGrass),
   (6/10, .HighGrass), (78/100, .Forest), (1, .Mountain)]

/-- The scan loop inside `getTerrain`: first band whose bound exceeds `h`. -/
def getTerrainAux (h : FVal) : List (Rat × TerrainType) → TerrainType
  | [] => .UndefinedTerrain
  | b :: rest => if FVal.flt h (some b.1) then b.2 else getTerrainAux h rest

/-- `getTerrain` from the source: scans `heightBoundaryToTile` in order and
returns the first band whose upper bound the height is strictly below;
`UndefinedTerrain` when the loop falls through. -/
def getTerrain (height : FVal) : TerrainType :=
  getTerrainAux height heightBoundaryToTile

/-- `mod` from the source: `(a%b + b) % b` with Go's truncated `%`. -/
def mod (a b : Int) : Int :=
  ((a.tmod b) + b).tmod b

/-- `getChunkCoords` from the source: truncated division by the chunk size,
then decrement each component whose tile coordinate is negative. -/
def getChunkCoords (st : Settings) (tileCoord : Coord) : Coord :=
  let resX := tileCoord.X.tdiv st.chunkW
  let resY := tileCoord.Y.tdiv st.chunkH
  { X := if tileCoord.X < 0 then resX - 1 else resX
    Y := if tileCoord.Y < 0 then resY - 1 else resY }

/-- `Matrix[T]` from the source: width, height, flat row-major backing slice. -/
structure Matrix (T : Type) where
  w : Int
  h : Int
  data : List T
deriving DecidableEq, Repr

/-- `MakeMatrix`: `make([]T, w*h)` panics (`none`) when `w*h` is negative,
otherwise allocates `w*h` zero values. -/
def MakeMatrix (T : Type) [Inhabited T] (w h : Int) : Option (Matrix T) :=
  if 0 ≤ w * h then some ⟨w, h, List.replicate (w * h).toNat default⟩ else none

/-- `Matrix.At`: reads `data[y*w+x]`; `none` models the index-out-of-range
panic of Go slice indexing. -/
def Matrix.At {T : Type} (m : Matrix T) (x y : Int) : Option T :=
  let i := y * m.w + x
  if hin : 0 ≤ i ∧ i.toNat < m.data.length then
    some (m.data.get ⟨i.toNat, hin.2⟩)
  else
    none

/-- `Matrix.Set`: writes `data[y*w+x]`; `none` models the panic. -/
def Matrix.Set {T : Type} (m : Matrix T) (x y : Int) (t : T) : Option (Matrix T) :=
  let i := y * m.w + x
  if 0 ≤ i ∧ i.toNat < m.data.length then
    some ⟨m.w, m.h, m.data.set i.toNat t⟩
  else
    none

/-- `Chunk`: owns a grid of tiles. -/
structure Chunk where
  tiles : Matrix Tile
deriving DecidableEq, Repr

/-- The noise generator: a pure function of the seed and the two sample
coordinates (models `noise.New(noise.Perlin, seed)` followed by `Eval32`). -/
abbrev Noise := Int → Rat → Rat → Rat

/-- `getHeight` from the source: evaluate the seeded noise at
`(x / MAP_SCALAR.X, y / MAP_SCALAR.Y)` and remap `[-1,1]` to `[0,1]`. -/
def getHeight (st : Settings) (nz : Noise) (coordinate : Coord) : Rat :=
  let height := nz st.seed ((coordinate.X : Rat) / st.scaleX) ((coordinate.Y : Rat) / st.scaleY)
  (height + 1) / 2

/-- The tile the generation loop body builds for local offset `(x, y)` of the
chunk at `chunkCoordinate`: height sampled at the absolute tile coordinate
`chunkCoordinate * CHUNK_SIZE + (x, y)`, terrain classified from that height,
waterlogged iff the height is below WATER_LEVEL. -/
def generatedTile (st : Settings) (nz : Noise) (chunkCoordinate : Coord) (x y : Int) : Tile :=
  let height := getHeight st nz
    ⟨chunkCoordinate.X * st.chunkW + x, chunkCoordinate.Y * st.chunkH + y⟩
  { terrain := getTerrain (some height)
    waterlogged := decide (height < st.waterLevel)
    height := height }

/-- `generateChunk` from the source: allocate a CHUNK_SIZE matrix and fill
every cell with its generated tile, rows outer, columns inner. -/
def generateChunk (st : Settings) (nz : Noise) (chunkCoordinate : Coord) : Option Chunk :=
  (MakeMatrix Tile st.chunkW st.chunkH).bind fun tiles0 =>
    ((List.range tiles0.h.toNat).foldl (fun acc y =>
        (List.range tiles0.w.toNat).foldl (fun acc2 x =>
          acc2.bind fun m =>
            m.Set (x : Int) (y : Int) (generatedTile st nz chunkCoordinate (x : Int) (y : Int)))
          acc)
      (some tiles0)).map Chunk.mk

/-- The chunk cache (`coordToChunk`): association list, newest binding first. -/
abbrev ChunkStore := List (Coord × Chunk)

/-- Map lookup in the chunk cache. -/
def findChunk : ChunkStore → Coord → Option Chunk
  | [], _ => none
  | (c', ch) :: rest, c => if c' = c then some ch else findChunk rest c

/-- `ChunkMap.getChunk` from the source: on miss generate and insert, on hit
return the cached chunk.  The `Bool` instruments the generation side effect
(`true` exactly when `generateChunk` ran for this call). -/
def getChunk (st : Settings) (nz : Noise) (s : ChunkStore) (chunkCoordinate : Coord) :
    Option (Chunk × ChunkStore × Bool) :=
  match findChunk s chunkCoordinate with
  | some chunk => some (chunk, s, false)
  | none =>
      (generateChunk st nz chunkCoordinate).map fun chunk =>
        (chunk, (chunkCoordinate, chunk) :: s, true)

/-- `getChunk` called `n` times at the same coordinate, collecting each call's
returned chunk and generation flag. -/
def iterGetChunk (st : Settings) (nz : Noise) :
    Nat → ChunkStore → Coord → Option (List (Chunk × Bool) × ChunkStore)
  | 0, s, _ => some ([], s)
  | n + 1, s, c =>
      (getChunk st nz s c).bind fun out =>
        (iterGetChunk st nz n out.2.1 c).map fun rest =>
          ((out.1, out.2.2) :: rest.1, rest.2)

/-- `ChunkMap.getTile` from the source: chunk via `getChunkCoords`, in-chunk
offset via `mod`, then read the chunk's grid. -/
def getTile (st : Settings) (nz : Noise) (s : ChunkStore) (tileCoord : Coord) :
    Option (Tile × ChunkStore) :=
  let chunkCoord := getChunkCoords st tileCoord
  let offX := mod tileCoord.X st.chunkW
  let offY := mod tileCoord.Y st.chunkH
  (getChunk st nz s chunkCoord).bind fun out =>
    (out.1.tiles.At offX offY).map fun t => (t, out.2.1)

/-- The pure value `getTile` resolves for a tile coordinate: the generated
tile of the chunk `getChunkCoords` picks, at the `mod` offset. -/
def resolvedTile (st : Settings) (nz : Noise) (tileCoord : Coord) : Tile :=
  generatedTile st nz (getChunkCoords st tileCoord)
    (mod tileCoord.X st.chunkW) (mod tileCoord.Y st.chunkH)

/-- Cache well-formedness: every cached chunk is exactly what generation
produces for its coordinate.  Holds for the empty cache `main` starts from
and is preserved by every `getChunk`/`getTile` call. -/
def cacheWF (st : Settings) (nz : Noise) (s : ChunkStore) : Prop :=
  ∀ c ch, findChunk s c = some ch → generateChunk st nz c = some ch

/-- `Game`: window size and camera (the chunk cache is threaded separately). -/
structure Game where
  windowW : Int
  windowH : Int
  camX : Rat
  camY : Rat
deriving DecidableEq, Repr

/-- `Game.toScreenCoord`: `screen = world - cameraCenter + windowSize/2`
(the half window size uses Go integer division). -/
def toScreenCoord (g : Game) (worldCoord : Rat × Rat) : Rat × Rat :=
  (worldCoord.1 - g.camX + ((g.windowW.tdiv 2 : Int) : Rat),
   worldCoord.2 - g.camY + ((g.windowH.tdiv 2 : Int) : Rat))

/-- `Game.toWorldCoord`: `world = screen + cameraCenter - windowSize/2`. -/
def toWorldCoord (g : Game) (screenCoord : Rat × Rat) : Rat × Rat :=
  (screenCoord.1 + g.camX - ((g.windowW.tdiv 2 : Int) : Rat),
   screenCoord.2 + g.camY - ((g.windowH.tdiv 2 : Int) : Rat))

/-- Go's `int32(f)` conversion on a finite float: truncation toward zero. -/
def ratTrunc (q : Rat) : Int :=
  q.num.tdiv (q.den : Int)

/-- `Game.toTileCoord`: truncate the world coordinate to an integer, divide by
TILE_SIZE with truncation, then decrement each component whose world
coordinate is negative. -/
def toTileCoord (st : Settings) (worldCoord : Rat × Rat) : Coord :=
  let resX := (ratTrunc worldCoord.1).tdiv st.tileW
  let resY := (ratTrunc worldCoord.2).tdiv st.tileH
  { X := if worldCoord.1 < 0 then resX - 1 else resX
    Y := if worldCoord.2 < 0 then resY - 1 else resY }

/-- The debug overlay tile `Tile{terrain: UndefinedTerrain}` built in `draw`:
all other fields are Go zero values. -/
def debugTile : Tile :=
  { terrain := .UndefinedTerrain, waterlogged := false, height := 0 }

/-- One iteration of the body of `Game.draw` for screen cell `(x, y)`:
resolve the cell's tile and emit it at its screen position; when the cell's
tile coordinate is the origin, additionally emit the debug overlay tile. -/
def drawCell (g : Game) (st : Settings) (nz : Noise) (s : ChunkStore) (x y : Nat) :
    Option (List (Tile × (Rat × Rat)) × ChunkStore) :=
  let worldCoord := toWorldCoord g (((x : Int) * st.tileW : Int), ((y : Int) * st.tileH : Int))
  let tileCoord := toTileCoord st worldCoord
  (getTile st nz s tileCoord).map fun out =>
    ((out.1, toScreenCoord g worldCoord) ::
       (if tileCoord = ⟨0, 0⟩ then [(debugTile, toScreenCoord g worldCoord)] else []),
     out.2)

/-- `Game.draw` from the source: iterate the visible cells row-major
(`windowSize / TILE_SIZE` cells per axis, Go integer division), threading the
chunk cache, and collect every emission to the rendering sink in order. -/
def draw (g : Game) (st : Settings) (nz : Noise) (s : ChunkStore) :
    Option (List (Tile × (Rat × Rat)) × ChunkStore) :=
  (List.range (g.windowH.tdiv st.tileH).toNat).foldl (fun acc y =>
      (List.range (g.windowW.tdiv st.tileW).toNat).foldl (fun acc2 x =>
          acc2.bind fun out =>
            (drawCell g st nz out.2 x y).map fun cell => (out.1 ++ cell.1, cell.2))
        acc)
    (some ([], s))

/-! Specification-side definitions, written from the spec's words, to be
compared with the code-side definitions above. -/

/-- Modelled from the spec: the classifier table as explicit ascending bands,
first band whose exclusive upper bound strictly exceeds the height; Undefined
when no band matches (height at least 1.0, or NaN). -/
def terrainSpec : FVal → TerrainType
  | none => .UndefinedTerrain
  | some q =>
      if q < 42/100 then .Sand
      else if q < 45/100 then .Gravel
      else if q < 47/100 then .Dirt
      else if q < 55/100 then .LowGrass
      else if q < 6/10 then .HighGrass
      else if q < 78/100 then .Forest
      else if q < 1 then .Mountain
      else .UndefinedTerrain

/-- The fully generated backing data of a chunk: cell `(x, y)` at flat
row-major index `y * w + x` holds its generated tile. -/
def chunkSpecData (st : Settings) (nz : Noise) (c : Coord) : List Tile :=
  (List.range (st.chunkW.toNat * st.chunkH.toNat)).map fun j =>
    generatedTile st nz c ((j % st.chunkW.toNat : Nat) : Int) ((j / st.chunkW.toNat : Nat) : Int)

/-- The chunk `generateChunk` produces. -/
def chunkSpec (st : Settings) (nz : Noise) (c : Coord) : Chunk :=
  ⟨⟨st.chunkW, st.chunkH, chunkSpecData st nz c⟩⟩

/-- The emissions the spec prescribes for screen cell `(x, y)`: the cell's
resolved tile at its screen position, followed by the debug overlay tile
exactly when the cell's tile coordinate is the origin. -/
def cellEmits (g : Game) (st : Settings) (nz : Noise) (x y : Nat) :
    List (Tile × (Rat × Rat)) :=
  let worldCoord := toWorldCoord g (((x : Int) * st.tileW : Int), ((y : Int) * st.tileH : Int))
  let tileCoord := toTileCoord st worldCoord
  (resolvedTile st nz tileCoord, toScreenCoord g worldCoord) ::
    (if tileCoord = ⟨0, 0⟩ then [(debugTile, toScreenCoord g worldCoord)] else [])

/-- The full emission list of one draw pass, row-major over the visible cells. -/
def drawSpec (g : Game) (st : Settings) (nz : Noise) : List (Tile × (Rat × Rat)) :=
  (List.range (g.windowH.tdiv st.tileH).toNat).flatMap fun y =>
    (List.range (g.windowW.tdiv st.tileW).toNat).flatMap fun x =>
      cellEmits g st nz x y

/-- A concrete noise function used to instantiate theorems at concrete inputs. -/
def constNoise : Noise := fun _ _ _ => 0

/-- The `Game` value `main` constructs: an 800 by 600 window, camera at the
origin. -/
def mainGame : Game := { windowW := 800, windowH := 600, camX := 0, camY := 0 }

/-! Lemmas. -/

theorem tmod_neg_dividend (a b : Int) : (-a).tmod b = -(a.tmod b) := by
  rw [Int.tmod_def, Int.tmod_def, Int.neg_tdiv]
  ring

theorem neg_lt_tmod (a : Int) {b : Int} (hb : 0 < b) : -b < a.tmod b := by
  rcases le_or_lt 0 a with ha | ha
  · exact lt_of_lt_of_le (by omega) (Int.tmod_nonneg b ha)
  · have h1 : (-a).tmod b < b := Int.tmod_lt_of_pos _ hb
    have h2 : (-a).tmod b = -(a.tmod b) := tmod_neg_dividend a b
    omega

theorem mod_nonneg_lt (a : Int) {b : Int} (hb : 0 < b) : 0 ≤ mod a b ∧ mod a b < b := by
  have h1 : -b < a.tmod b := neg_lt_tmod a hb
  have h3 : 0 ≤ a.tmod b + b := by omega
  exact ⟨Int.tmod_nonneg _ h3, Int.tmod_lt_of_pos _ hb⟩

theorem getTerrainAux_some (q : Rat) (bound : Rat) (t : TerrainType)
    (rest : List (Rat × TerrainType)) :
    getTerrainAux (some q) ((bound, t) :: rest) =
      if q < bound then t else getTerrainAux (some q) rest := by
  by_cases h : q < bound <;> simp [getTerrainAux, FVal.flt, h]

theorem getTerrainAux_nil (h : FVal) : getTerrainAux h [] = .UndefinedTerrain := rfl

theorem Matrix.Set_nat {T : Type} (m : Matrix T) (W x y : Nat) (t : T) (hw : m.w = (W : Int))
    (hlt : y * W + x < m.data.length) :
    m.Set (x : Int) (y : Int) t = some ⟨m.w, m.h, m.data.set (y * W + x) t⟩ := by
  dsimp only [Matrix.Set]
  have hi : (y : Int) * m.w + (x : Int) = ((y * W + x : Nat) : Int) := by
    rw [hw]; push_cast; ring
  rw [hi]
  rw [if_pos ⟨Int.natCast_nonneg _, by simpa using hlt⟩]
  rw [Int.toNat_natCast]

theorem Matrix.At_nat {T : Type} (m : Matrix T) (W x y : Nat) (hw : m.w = (W : Int)) :
    m.At (x : Int) (y : Int) = m.data[y * W + x]? := by
  dsimp only [Matrix.At]
  have hi : (y : Int) * m.w + (x : Int) = ((y * W + x : Nat) : Int) := by
    rw [hw]; push_cast; ring
  have ht : ((y : Int) * m.w + (x : Int)).toNat = y * W + x := by
    rw [hi]; exact Int.toNat_natCast _
  split
  case isTrue hin =>
    rw [List.get_eq_getElem, ← List.getElem?_eq_getElem hin.2, ht]
  case isFalse hin =>
    have hno : ¬ (y * W + x < m.data.length) := by
      intro hcon
      exact hin ⟨by rw [hi]; exact Int.natCast_nonneg _, by rw [ht]; exact hcon⟩
    rw [List.getElem?_eq_none (by omega)]

theorem setRow_spec {T : Type} (f : Nat → Nat → T) (y W : Nat) :
    ∀ (n : Nat) (m : Matrix T), m.w = (W : Int) → y * W + n ≤ m.data.length →
    ∃ m2, (List.range n).foldl
        (fun acc2 x => acc2.bind fun mm => mm.Set (x : Int) (y : Int) (f x y)) (some m) = some m2
      ∧ m2.w = (W : Int) ∧ m2.h = m.h ∧ m2.data.length = m.data.length
      ∧ ∀ j : Nat, m2.data[j]? =
          if y * W ≤ j ∧ j < y * W + n then some (f (j - y * W) y) else m.data[j]?
  | 0, m, hw, _ =>
      ⟨m, by simp, hw, rfl, rfl, by
        intro j
        rw [if_neg (by omega)]⟩
  | n + 1, m, hw, hlen => by
      obtain ⟨m1, hfold, hw1, hh1, hlen1, hdesc⟩ := setRow_spec f y W n m hw (by omega)
      have hset := Matrix.Set_nat m1 W n y (f n y) hw1 (by omega)
      refine ⟨⟨m1.w, m1.h, m1.data.set (y * W + n) (f n y)⟩, ?_, by rw [hw1], by rw [hh1],
        by simpa using hlen1, ?_⟩
      · rw [List.range_succ, List.foldl_append, hfold]
        exact hset
      · intro j
        simp only [List.getElem?_set]
        by_cases hj : y * W + n = j
        · subst hj
          rw [if_pos rfl, if_pos (by omega), if_pos (by omega)]
          simp only [Nat.add_sub_cancel_left]
        · rw [if_neg hj, hdesc j]
          by_cases h1 : y * W ≤ j ∧ j < y * W + n
          · rw [if_pos h1, if_pos (by omega)]
          · rw [if_neg (show ¬ (y * W ≤ j ∧ j < y * W + (n + 1)) by omega), if_neg h1]

theorem fillMatrix_spec {T : Type} [Inhabited T] (f : Nat → Nat → T) (W H : Nat) :
    ∀ (k : Nat), k ≤ H →
    ∃ m2, (List.range k).foldl (fun acc y =>
        (List.range W).foldl
          (fun acc2 x => acc2.bind fun mm => mm.Set (x : Int) (y : Int) (f x y)) acc)
        (some (⟨(W : Int), (H : Int), List.replicate (W * H) default⟩ : Matrix T)) = some m2
      ∧ m2.w = (W : Int) ∧ m2.h = (H : Int) ∧ m2.data.length = W * H
      ∧ ∀ j : Nat, m2.data[j]? =
          if j < k * W then some (f (j % W) (j / W))
          else if j < W * H then some default else none
  | 0, _ =>
      ⟨⟨(W : Int), (H : Int), List.replicate (W * H) default⟩,
        by rw [List.range_zero, List.foldl_nil], rfl, rfl, by simp, by
        intro j
        rw [if_neg (by omega)]
        by_cases hj : j < W * H
        · rw [if_pos hj]
          show (List.replicate (W * H) (default : T))[j]? = some default
          rw [List.getElem?_replicate, if_pos hj]
        · rw [if_neg hj]
          show (List.replicate (W * H) (default : T))[j]? = none
          rw [List.getElem?_replicate, if_neg hj]⟩
  | k + 1, hk => by
      obtain ⟨m1, hfold, hw1, hh1, hlen1, hdesc⟩ := fillMatrix_spec f W H k (by omega)
      have hle : k * W + W ≤ m1.data.length := by
        rw [hlen1]
        calc k * W + W = (k + 1) * W := by ring
        _ ≤ H * W := Nat.mul_le_mul_right W hk
        _ = W * H := Nat.mul_comm H W
      obtain ⟨m2, hfold2, hw2, hh2, hlen2, hdesc2⟩ := setRow_spec f k W W m1 hw1 hle
      refine ⟨m2, ?_, hw2, by rw [hh2, hh1], by rw [hlen2, hlen1], ?_⟩
      · rw [List.range_succ, List.foldl_append, hfold]
        exact hfold2
      · intro j
        have hmul : (k + 1) * W = k * W + W := by ring
        rw [hdesc2 j, hmul]
        by_cases hrow : k * W ≤ j ∧ j < k * W + W
        · obtain ⟨r, hrlt, rfl⟩ : ∃ r, r < W ∧ j = k * W + r :=
            ⟨j - k * W, by omega, by omega⟩
          have hW : 0 < W := by omega
          have e0 : k * W + r - k * W = r := by omega
          have e1 : (k * W + r) % W = r := by
            rw [show k * W + r = W * k + r by ring, Nat.mul_add_mod, Nat.mod_eq_of_lt hrlt]
          have e2 : (k * W + r) / W = k := by
            rw [show k * W + r = W * k + r by ring, Nat.mul_add_div hW,
              Nat.div_eq_of_lt hrlt, Nat.add_zero]
          rw [if_pos hrow, if_pos (by omega : k * W + r < k * W + W), e0, e1, e2]
        · rw [if_neg hrow, hdesc j]
          by_cases h1 : j < k * W
          · rw [if_pos h1, if_pos (by omega)]
          · rw [if_neg (show ¬ (j < k * W + W) by omega), if_neg h1]

theorem Matrix.eq_mk {T : Type} (m : Matrix T) (a b : Int) (d : List T)
    (h1 : m.w = a) (h2 : m.h = b) (h3 : m.data = d) : m = ⟨a, b, d⟩ := by
  cases m
  cases h1
  cases h2
  cases h3
  rfl

theorem chunkSpecData_length (st : Settings) (nz : Noise) (c : Coord) :
    (chunkSpecData st nz c).length = st.chunkW.toNat * st.chunkH.toNat := by
  unfold chunkSpecData
  rw [List.length_map, List.length_range]

theorem generateChunk_eq (st : Settings) (nz : Noise) (c : Coord)
    (hw : 0 < st.chunkW) (hh : 0 < st.chunkH) :
    generateChunk st nz c = some (chunkSpec st nz c) := by
  have hW : ((st.chunkW.toNat : Nat) : Int) = st.chunkW := Int.toNat_of_nonneg hw.le
  have hH : ((st.chunkH.toNat : Nat) : Int) = st.chunkH := Int.toNat_of_nonneg hh.le
  set W := st.chunkW.toNat with hWdef
  set H := st.chunkH.toNat with hHdef
  have hcount : (st.chunkW * st.chunkH).toNat = W * H := by
    rw [← hW, ← hH, ← Nat.cast_mul, Int.toNat_natCast]
  unfold generateChunk MakeMatrix
  rw [if_pos (by positivity)]
  rw [Option.some_bind]
  obtain ⟨m2, hfold, hw2, hh2, hlen2, hdesc⟩ :=
    fillMatrix_spec (fun x y => generatedTile st nz c (x : Int) (y : Int)) W H H (le_refl H)
  have hmatch :
      ((List.range H).foldl (fun acc y =>
          (List.range W).foldl
            (fun acc2 x => acc2.bind fun mm =>
              mm.Set (x : Int) (y : Int) (generatedTile st nz c (x : Int) (y : Int))) acc)
          (some (⟨(W : Int), (H : Int), List.replicate (W * H) default⟩ : Matrix Tile)))
        = some m2 := hfold
  rw [show (⟨st.chunkW, st.chunkH,
        List.replicate (st.chunkW * st.chunkH).toNat default⟩ : Matrix Tile)
      = ⟨(W : Int), (H : Int), List.replicate (W * H) default⟩ by
    rw [hcount, hW, hH]]
  rw [show (⟨(W : Int), (H : Int), List.replicate (W * H) default⟩ : Matrix Tile).h.toNat
      = H by simp, show (⟨(W : Int), (H : Int), List.replicate (W * H) default⟩ :
        Matrix Tile).w.toNat = W by simp]
  rw [hmatch]
  unfold chunkSpec
  simp only [Option.map_some', Option.some.injEq, Chunk.mk.injEq]
  refine Matrix.eq_mk m2 _ _ _ (by rw [hw2, hW]) (by rw [hh2, hH]) ?_
  apply List.ext_getElem?
  intro j
  rw [hdesc j]
  unfold chunkSpecData
  rw [List.getElem?_map]
  have hcomm : H * W = W * H := Nat.mul_comm H W
  by_cases hj : j < W * H
  · rw [if_pos (by omega), List.getElem?_range hj]
    rfl
  · rw [if_neg (by omega), if_neg hj, List.getElem?_eq_none (by simpa using (by omega : ¬ j < W * H))]
    rfl

theorem chunkSpec_At (st : Settings) (nz : Noise) (c : Coord)
    (hw : 0 < st.chunkW) (hh : 0 < st.chunkH) (lx ly : Int)
    (hx0 : 0 ≤ lx) (hxw : lx < st.chunkW) (hy0 : 0 ≤ ly) (hyh : ly < st.chunkH) :
    (chunkSpec st nz c).tiles.At lx ly = some (generatedTile st nz c lx ly) := by
  have hW : ((st.chunkW.toNat : Nat) : Int) = st.chunkW := Int.toNat_of_nonneg hw.le
  have hH : ((st.chunkH.toNat : Nat) : Int) = st.chunkH := Int.toNat_of_nonneg hh.le
  set W := st.chunkW.toNat with hWdef
  set H := st.chunkH.toNat with hHdef
  have hx : lx.toNat < W := by omega
  have hy : ly.toNat < H := by omega
  have hxe : ((lx.toNat : Nat) : Int) = lx := Int.toNat_of_nonneg hx0
  have hye : ((ly.toNat : Nat) : Int) = ly := Int.toNat_of_nonneg hy0
  rw [← hxe, ← hye]
  rw [Matrix.At_nat _ W lx.toNat ly.toNat (by exact hW.symm)]
  have hlt : ly.toNat * W + lx.toNat < W * H := by
    calc ly.toNat * W + lx.toNat < ly.toNat * W + W := by omega
    _ = (ly.toNat + 1) * W := by ring
    _ ≤ H * W := Nat.mul_le_mul_right W (by omega)
    _ = W * H := Nat.mul_comm H W
  show (chunkSpecData st nz c)[ly.toNat * W + lx.toNat]? = _
  unfold chunkSpecData
  rw [List.getElem?_map, List.getElem?_range hlt]
  have hW0 : 0 < W := by omega
  have e1 : (ly.toNat * W + lx.toNat) % W = lx.toNat := by
    rw [show ly.toNat * W + lx.toNat = W * ly.toNat + lx.toNat by ring, Nat.mul_add_mod,
      Nat.mod_eq_of_lt hx]
  have e2 : (ly.toNat * W + lx.toNat) / W = ly.toNat := by
    rw [show ly.toNat * W + lx.toNat = W * ly.toNat + lx.toNat by ring, Nat.mul_add_div hW0,
      Nat.div_eq_of_lt hx, Nat.add_zero]
  simp only [Option.map_some', Option.some.injEq]
  rw [e1, e2]

theorem findChunk_cons_self (s : ChunkStore) (c : Coord) (ch : Chunk) :
    findChunk ((c, ch) :: s) c = some ch := by
  simp [findChunk]

theorem getChunk_hit (st : Settings) (nz : Noise) (s : ChunkStore) (c : Coord) (ch : Chunk)
    (h : findChunk s c = some ch) : getChunk st nz s c = some (ch, s, false) := by
  unfold getChunk
  rw [h]

theorem getChunk_miss (st : Settings) (nz : Noise) (s : ChunkStore) (c : Coord)
    (hmiss : findChunk s c = none) (hw : 0 < st.chunkW) (hh : 0 < st.chunkH) :
    getChunk st nz s c = some (chunkSpec st nz c, (c, chunkSpec st nz c) :: s, true) := by
  unfold getChunk
  rw [hmiss, generateChunk_eq st nz c hw hh]
  rfl

theorem cacheWF_nil (st : Settings) (nz : Noise) : cacheWF st nz [] := by
  intro c ch h
  exact Option.noConfusion h

theorem cacheWF_insert (st : Settings) (nz : Noise) (s : ChunkStore) (c : Coord)
    (hwf : cacheWF st nz s) (hw : 0 < st.chunkW) (hh : 0 < st.chunkH) :
    cacheWF st nz ((c, chunkSpec st nz c) :: s) := by
  intro c2 ch2 h2
  by_cases he : c = c2
  · subst he
    rw [findChunk_cons_self] at h2
    cases h2
    exact generateChunk_eq st nz c hw hh
  · unfold findChunk at h2
    rw [if_neg he] at h2
    exact hwf c2 ch2 h2

theorem getTile_spec (st : Settings) (nz : Noise) (s : ChunkStore) (p : Coord)
    (hw : 0 < st.chunkW) (hh : 0 < st.chunkH) (hwf : cacheWF st nz s) :
    ∃ s2, getTile st nz s p = some (resolvedTile st nz p, s2) ∧ cacheWF st nz s2 := by
  have hmx := mod_nonneg_lt p.X hw
  have hmy := mod_nonneg_lt p.Y hh
  simp only [getTile]
  cases hca : findChunk s (getChunkCoords st p) with
  | some ch =>
      have hgen := hwf _ _ hca
      rw [generateChunk_eq st nz _ hw hh] at hgen
      cases hgen
      refine ⟨s, ?_, hwf⟩
      rw [getChunk_hit st nz s _ _ hca]
      simp only [Option.some_bind]
      rw [chunkSpec_At st nz _ hw hh _ _ hmx.1 hmx.2 hmy.1 hmy.2]
      rfl
  | none =>
      refine ⟨(getChunkCoords st p, chunkSpec st nz (getChunkCoords st p)) :: s, ?_,
        cacheWF_insert st nz s _ hwf hw hh⟩
      rw [getChunk_miss st nz s _ hca hw hh]
      simp only [Option.some_bind]
      rw [chunkSpec_At st nz _ hw hh _ _ hmx.1 hmx.2 hmy.1 hmy.2]
      rfl

theorem iterGetChunk_hit (st : Settings) (nz : Noise) :
    ∀ (n : Nat) (s : ChunkStore) (c : Coord) (ch : Chunk),
    findChunk s c = some ch → iterGetChunk st nz n s c = some (List.replicate n (ch, false), s)
  | 0, s, c, ch, _ => by
      simp [iterGetChunk]
  | n + 1, s, c, ch, h => by
      unfold iterGetChunk
      rw [getChunk_hit st nz s c ch h]
      simp only [Option.some_bind]
      rw [iterGetChunk_hit st nz n s c ch h]
      simp [List.replicate_succ]

theorem getChunk_preserves (st : Settings) (nz : Noise) (s0 : ChunkStore) (c0 : Coord)
    (out : Chunk × ChunkStore × Bool) (h : getChunk st nz s0 c0 = some out) :
    ∀ c2 ch2, findChunk s0 c2 = some ch2 → findChunk out.2.1 c2 = some ch2 := by
  intro c2 ch2 h2
  unfold getChunk at h
  cases hf : findChunk s0 c0 with
  | some ch =>
      rw [hf] at h
      cases h
      exact h2
  | none =>
      rw [hf] at h
      cases hg : generateChunk st nz c0 with
      | none =>
          rw [hg] at h
          cases h
      | some chg =>
          rw [hg] at h
          cases h
          show findChunk ((c0, chg) :: s0) c2 = some ch2
          unfold findChunk
          by_cases he : c0 = c2
          · subst he
            rw [hf] at h2
            cases h2
          · rw [if_neg he]
            exact h2

/-! Claim theorems. -/

/-- C1: the spec requires every tile (x, y) to resolve through the chunk at the
true floor division of the tile coordinate by the chunk size; the code's
`getChunkCoords` (divide toward zero, then subtract one when the coordinate is
negative) disagrees with floor division at exact negative multiples of the
chunk size: tile x = -25 is placed in chunk -2 although floorDiv(-25, 25) = -1,
so `getTile` reads the cell generated for absolute coordinate
chunk * 25 + offset = -50, not -25. -/
theorem getChunkCoords_bug_at_neg_multiple :
    getChunkCoords gameSettings ⟨-25, 0⟩ = ⟨-2, 0⟩
      ∧ Int.fdiv (-25) 25 = -1
      ∧ mod (-25) gameSettings.chunkW = 0
      ∧ (getChunkCoords gameSettings ⟨-25, 0⟩).X * gameSettings.chunkW
          + mod (-25) gameSettings.chunkW = -50 := by
  decide

/-- C5: `getTerrain` returns the category of the first band of
`heightBoundaryToTile` whose exclusive upper bound strictly exceeds the height,
and `UndefinedTerrain` (without faulting) when no band matches, i.e. when the
height is at least 1.0 or is NaN. -/
theorem getTerrain_eq_terrainSpec : ∀ h : FVal, getTerrain h = terrainSpec h := by
  intro h
  cases h with
  | none => rfl
  | some q =>
      simp only [getTerrain, heightBoundaryToTile, terrainSpec,
        getTerrainAux_some, getTerrainAux_nil]

/-- C6 counterexample: the claim states that a height of exactly 0.42
classifies as Sand and a height of exactly 1.0 as Mountain; on the code both
band bounds are exclusive, so 0.42 classifies as Gravel and 1.0 falls through
every band to UndefinedTerrain. -/
theorem getTerrain_boundary_counterexample :
    (getTerrain (some (42/100)) = .Gravel ∧ getTerrain (some (42/100)) ≠ .Sand)
      ∧ (getTerrain (some 1) = .UndefinedTerrain ∧ getTerrain (some 1) ≠ .Mountain) := by
  norm_num [getTerrain, getTerrainAux_some, getTerrainAux_nil, heightBoundaryToTile]
  decide

/-- C6 amended: at the band boundaries, `getTerrain` applied to 0.419, 0.42 and
0.421 returns Sand, Gravel and Gravel respectively (the 0.42 upper bound is
exclusive), and `getTerrain` applied to exactly 1.0 returns UndefinedTerrain
(the final 1.0 bound is exclusive as well). -/
theorem getTerrain_boundary_amended :
    getTerrain (some (419/1000)) = .Sand
      ∧ getTerrain (some (42/100)) = .Gravel
      ∧ getTerrain (some (421/1000)) = .Gravel
      ∧ getTerrain (some 1) = .UndefinedTerrain := by
  norm_num [getTerrain, getTerrainAux_some, getTerrainAux_nil, heightBoundaryToTile]

/-- C7: the true-modulo `mod(a,b) = ((a % b) + b) % b` lands in `[0, b)` for
every integer `a` and positive `b`, and the sign-boundary values hold: the
chunk coordinate of tile -1 is -1 and of tile 0 is 0 with chunk size 25,
`mod (-1) 25 = 24`, and `mod 25 25 = 0`. -/
theorem mod_true_modulo :
    (∀ a b : Int, 0 < b → 0 ≤ mod a b ∧ mod a b < b)
      ∧ getChunkCoords gameSettings ⟨-1, -1⟩ = ⟨-1, -1⟩
      ∧ getChunkCoords gameSettings ⟨0, 0⟩ = ⟨0, 0⟩
      ∧ mod (-1) 25 = 24
      ∧ mod 25 25 = 0 := by
  exact ⟨fun a b hb => mod_nonneg_lt a hb, by decide, by decide, by decide, by decide⟩

/-- C7 witness: the general bound instantiated at a = -7, b = 25. -/
theorem mod_true_modulo_witness :
    (0 : Int) < 25 ∧ (0 ≤ mod (-7) 25 ∧ mod (-7) 25 < 25) :=
  ⟨by decide, mod_true_modulo.1 (-7) 25 (by decide)⟩

/-- C8: `toScreenCoord` computes `world - cameraCenter + windowSize/2` and
`toWorldCoord` computes `screen + cameraCenter - windowSize/2`; over the exact
(rational) model of the float arithmetic the two are exact inverses in both
directions, for every camera center, window size and world point. -/
theorem toWorldCoord_toScreenCoord_inverse :
    ∀ (g : Game) (p : Rat × Rat),
      toWorldCoord g (toScreenCoord g p) = p ∧ toScreenCoord g (toWorldCoord g p) = p := by
  intro g p
  obtain ⟨a, b⟩ := p
  unfold toWorldCoord toScreenCoord
  constructor <;> simp <;> constructor <;> ring

/-- C9 counterexample: the claim states every `At` call with a per-axis
out-of-range index faults; on a 2 by 2 matrix with cells 10..13, reading
`At 2 0` (x = 2 is outside `[0, w)`) does not fault and returns 12, the value
stored at the different cell (0, 1). -/
theorem matrix_At_out_of_range_counterexample :
    (Matrix.mk 2 2 [10, 11, 12, 13] : Matrix Nat).At 2 0 = some 12
      ∧ (Matrix.mk 2 2 [10, 11, 12, 13] : Matrix Nat).At 0 1 = some 12 := by
  decide

/-- C9 amended: `At` and `Set` fault exactly when the flattened row-major index
`y*w + x` falls outside `[0, len(data))`; a per-axis out-of-range call whose
flat index is still in range does not fault and silently addresses the cell at
that flat index. -/
theorem matrix_At_Set_fault_iff {T : Type} (m : Matrix T) (x y : Int) (t : T) :
    (m.At x y = none ↔ (y * m.w + x < 0 ∨ (m.data.length : Int) ≤ y * m.w + x))
      ∧ (m.Set x y t = none ↔ (y * m.w + x < 0 ∨ (m.data.length : Int) ≤ y * m.w + x)) := by
  constructor
  · unfold Matrix.At
    by_cases hin : 0 ≤ y * m.w + x ∧ (y * m.w + x).toNat < m.data.length
    · simp only [hin, dif_pos]
      constructor
      · intro h
        exact Option.noConfusion h
      · intro h
        omega
    · simp only [hin, dif_neg, not_false_iff, true_iff]
      omega
  · unfold Matrix.Set
    by_cases hin : 0 ≤ y * m.w + x ∧ (y * m.w + x).toNat < m.data.length
    · simp only [hin, if_pos]
      constructor
      · intro h
        exact Option.noConfusion h
      · intro h
        omega
    · simp only [hin, if_neg, not_false_iff, true_iff]
      omega

theorem drawCell_spec (g : Game) (st : Settings) (nz : Noise) (s : ChunkStore) (x y : Nat)
    (hw : 0 < st.chunkW) (hh : 0 < st.chunkH) (hwf : cacheWF st nz s) :
    ∃ s2, drawCell g st nz s x y = some (cellEmits g st nz x y, s2) ∧ cacheWF st nz s2 := by
  obtain ⟨s2, he, hwf2⟩ := getTile_spec st nz s (toTileCoord st (toWorldCoord g
    (((x : Int) * st.tileW : Int), ((y : Int) * st.tileH : Int)))) hw hh hwf
  refine ⟨s2, ?_, hwf2⟩
  simp only [drawCell, cellEmits]
  rw [he]
  rfl

theorem drawRow_spec (g : Game) (st : Settings) (nz : Noise) (y : Nat)
    (hw : 0 < st.chunkW) (hh : 0 < st.chunkH) :
    ∀ (n : Nat) (s : ChunkStore) (out : List (Tile × (Rat × Rat))), cacheWF st nz s →
    ∃ s2, (List.range n).foldl (fun acc2 x => acc2.bind fun o =>
        (drawCell g st nz o.2 x y).map fun cell => (o.1 ++ cell.1, cell.2)) (some (out, s))
      = some (out ++ (List.range n).flatMap (fun x => cellEmits g st nz x y), s2)
      ∧ cacheWF st nz s2
  | 0, s, out, hwf => ⟨s, by simp, hwf⟩
  | n + 1, s, out, hwf => by
      obtain ⟨s2, hfold, hwf2⟩ := drawRow_spec g st nz y hw hh n s out hwf
      obtain ⟨s3, hcell, hwf3⟩ := drawCell_spec g st nz s2 n y hw hh hwf2
      refine ⟨s3, ?_, hwf3⟩
      rw [List.range_succ, List.foldl_append, hfold]
      simp only [List.foldl_cons, List.foldl_nil, Option.some_bind]
      rw [hcell]
      simp only [Option.map_some']
      rw [List.flatMap_append, ← List.append_assoc]
      simp

theorem drawRows_spec (g : Game) (st : Settings) (nz : Noise)
    (hw : 0 < st.chunkW) (hh : 0 < st.chunkH) :
    ∀ (k : Nat) (s : ChunkStore) (out : List (Tile × (Rat × Rat))), cacheWF st nz s →
    ∃ s2, (List.range k).foldl (fun acc y =>
        (List.range (g.windowW.tdiv st.tileW).toNat).foldl (fun acc2 x =>
          acc2.bind fun o =>
            (drawCell g st nz o.2 x y).map fun cell => (o.1 ++ cell.1, cell.2)) acc)
        (some (out, s))
      = some (out ++ (List.range k).flatMap (fun y =>
          (List.range (g.windowW.tdiv st.tileW).toNat).flatMap fun x =>
            cellEmits g st nz x y), s2)
      ∧ cacheWF st nz s2
  | 0, s, out, hwf => ⟨s, by simp, hwf⟩
  | k + 1, s, out, hwf => by
      obtain ⟨s2, hfold, hwf2⟩ := drawRows_spec g st nz hw hh k s out hwf
      obtain ⟨s3, hrow, hwf3⟩ := drawRow_spec g st nz k hw hh
        (g.windowW.tdiv st.tileW).toNat s2
        (out ++ (List.range k).flatMap (fun y =>
          (List.range (g.windowW.tdiv st.tileW).toNat).flatMap fun x =>
            cellEmits g st nz x y)) hwf2
      refine ⟨s3, ?_, hwf3⟩
      rw [List.range_succ, List.foldl_append, hfold]
      simp only [List.foldl_cons, List.foldl_nil]
      rw [hrow]
      rw [List.flatMap_append, ← List.append_assoc]
      simp

/-- C2: for a fixed seed and generation configuration, `getTile` resolves every
tile coordinate to the same, state-independent `Tile` value: from any two
well-formed cache states (fresh generation, cached chunk, or any interleaving
of other `getTile` calls, all of which preserve well-formedness) the calls
return bit-identical tiles, namely the pure `resolvedTile` value. -/
theorem getTile_deterministic (st : Settings) (nz : Noise) (s1 s2 : ChunkStore) (p : Coord)
    (hw : 0 < st.chunkW) (hh : 0 < st.chunkH)
    (h1 : cacheWF st nz s1) (h2 : cacheWF st nz s2) :
    ∃ t s1b s2b, getTile st nz s1 p = some (t, s1b) ∧ getTile st nz s2 p = some (t, s2b)
      ∧ t = resolvedTile st nz p ∧ cacheWF st nz s1b ∧ cacheWF st nz s2b := by
  obtain ⟨s1b, e1, w1⟩ := getTile_spec st nz s1 p hw hh h1
  obtain ⟨s2b, e2, w2⟩ := getTile_spec st nz s2 p hw hh h2
  exact ⟨_, s1b, s2b, e1, e2, rfl, w1, w2⟩

/-- C2 witness: two `getTile` calls on the empty cache at (0,0) under the
configured settings and a concrete noise function. -/
theorem getTile_deterministic_witness :
    ∃ t s1b s2b, getTile gameSettings constNoise [] ⟨0, 0⟩ = some (t, s1b)
      ∧ getTile gameSettings constNoise [] ⟨0, 0⟩ = some (t, s2b)
      ∧ t = resolvedTile gameSettings constNoise ⟨0, 0⟩
      ∧ cacheWF gameSettings constNoise s1b ∧ cacheWF gameSettings constNoise s2b :=
  getTile_deterministic gameSettings constNoise [] [] ⟨0, 0⟩ (by decide) (by decide)
    (cacheWF_nil gameSettings constNoise) (cacheWF_nil gameSettings constNoise)

/-- C3: calling `getChunk` N times at the same coordinate returns the same
chunk content every time; starting from a state where the coordinate is
missing, the generation side effect fires on exactly the first of the N calls
and the store gains exactly the one new binding; on a hit the cached chunk is
returned with no regeneration and no state change; and `getChunk` never
removes or overwrites an existing entry. -/
theorem getChunk_cache_idempotent (st : Settings) (nz : Noise) (s : ChunkStore) (c : Coord)
    (N : Nat) (hw : 0 < st.chunkW) (hh : 0 < st.chunkH) (hN : 2 ≤ N) :
    (findChunk s c = none →
        ∃ ch, generateChunk st nz c = some ch
          ∧ iterGetChunk st nz N s c
              = some ((ch, true) :: List.replicate (N - 1) (ch, false), (c, ch) :: s))
      ∧ (∀ ch, findChunk s c = some ch →
          iterGetChunk st nz N s c = some (List.replicate N (ch, false), s))
      ∧ (∀ (s0 : ChunkStore) (c0 : Coord) (out : Chunk × ChunkStore × Bool),
          getChunk st nz s0 c0 = some out →
          ∀ c2 ch2, findChunk s0 c2 = some ch2 → findChunk out.2.1 c2 = some ch2) := by
  refine ⟨?_, ?_, getChunk_preserves st nz⟩
  · intro hmiss
    refine ⟨chunkSpec st nz c, generateChunk_eq st nz c hw hh, ?_⟩
    obtain ⟨N2, rfl⟩ : ∃ N2, N = N2 + 1 := ⟨N - 1, by omega⟩
    unfold iterGetChunk
    rw [getChunk_miss st nz s c hmiss hw hh]
    simp only [Option.some_bind]
    rw [iterGetChunk_hit st nz N2 _ c _ (findChunk_cons_self s c _)]
    simp
  · intro ch hhit
    exact iterGetChunk_hit st nz N s c ch hhit

/-- C3 witness: two calls at (0,0) starting from the empty store under the
configured settings. -/
theorem getChunk_cache_idempotent_witness :
    ∃ ch, generateChunk gameSettings constNoise ⟨0, 0⟩ = some ch
      ∧ iterGetChunk gameSettings constNoise 2 [] ⟨0, 0⟩
          = some ((ch, true) :: List.replicate 1 (ch, false), (⟨0, 0⟩, ch) :: []) :=
  (getChunk_cache_idempotent gameSettings constNoise [] ⟨0, 0⟩ 2
    (by decide) (by decide) (by decide)).1 rfl

/-- C4: for every chunk coordinate and every in-range local offset (lx, ly),
the chunk built by `generateChunk` stores at grid cell (lx, ly) a tile whose
height is the noise sample at absolute tile coordinate
chunkCoordinate * chunkSize + (lx, ly), whose terrain is the classification of
that height, and whose waterlogged flag is set exactly when the height is
below the configured water level; every cell of the grid is filled this way. -/
theorem generateChunk_cells (st : Settings) (nz : Noise) (c : Coord) (lx ly : Int)
    (hw : 0 < st.chunkW) (hh : 0 < st.chunkH)
    (hx : 0 ≤ lx ∧ lx < st.chunkW) (hy : 0 ≤ ly ∧ ly < st.chunkH) :
    ∃ ch, generateChunk st nz c = some ch
      ∧ ch.tiles.At lx ly = some
          { terrain := getTerrain (some (getHeight st nz
              ⟨c.X * st.chunkW + lx, c.Y * st.chunkH + ly⟩))
            waterlogged := decide (getHeight st nz
              ⟨c.X * st.chunkW + lx, c.Y * st.chunkH + ly⟩ < st.waterLevel)
            height := getHeight st nz ⟨c.X * st.chunkW + lx, c.Y * st.chunkH + ly⟩ } :=
  ⟨chunkSpec st nz c, generateChunk_eq st nz c hw hh, by
    rw [chunkSpec_At st nz c hw hh lx ly hx.1 hx.2 hy.1 hy.2]
    rfl⟩

/-- C4 witness: cell (3, 4) of the chunk at (0, 0) under the configured
settings and a concrete noise function. -/
theorem generateChunk_cells_witness :
    ∃ ch, generateChunk gameSettings constNoise ⟨0, 0⟩ = some ch
      ∧ ch.tiles.At 3 4 = some
          { terrain := getTerrain (some (getHeight gameSettings constNoise
              ⟨0 * gameSettings.chunkW + 3, 0 * gameSettings.chunkH + 4⟩))
            waterlogged := decide (getHeight gameSettings constNoise
              ⟨0 * gameSettings.chunkW + 3, 0 * gameSettings.chunkH + 4⟩
                < gameSettings.waterLevel)
            height := getHeight gameSettings constNoise
              ⟨0 * gameSettings.chunkW + 3, 0 * gameSettings.chunkH + 4⟩ } :=
  generateChunk_cells gameSettings constNoise ⟨0, 0⟩ 3 4 (by decide) (by decide)
    (by decide) (by decide)

/-- C10: one `draw` pass emits, for every visible screen cell in row-major
order, the cell's resolved tile at its screen position, and each cell whose
computed tile coordinate is exactly (0, 0) receives, directly after its
resolved tile, a second emission of a fresh UndefinedTerrain debug tile at the
same screen position, while every other cell is emitted exactly once — the
emission list equals `drawSpec`, whose per-cell contribution is
`cellEmits` (the resolved tile followed by the debug overlay exactly on the
origin tile). -/
theorem draw_emissions (g : Game) (st : Settings) (nz : Noise) (s : ChunkStore)
    (hw : 0 < st.chunkW) (hh : 0 < st.chunkH) (hwf : cacheWF st nz s) :
    ∃ s2, draw g st nz s = some (drawSpec g st nz, s2) ∧ cacheWF st nz s2 := by
  obtain ⟨s2, hfold, hwf2⟩ :=
    drawRows_spec g st nz hw hh (g.windowH.tdiv st.tileH).toNat s [] hwf
  refine ⟨s2, ?_, hwf2⟩
  unfold draw drawSpec
  rw [hfold]
  simp

/-- C10 witness: the draw pass of the game `main` constructs (800 by 600
window, camera at the origin) starting from the empty chunk cache. -/
theorem draw_emissions_witness :
    ∃ s2, draw mainGame gameSettings constNoise [] =
        some (drawSpec mainGame gameSettings constNoise, s2)
      ∧ cacheWF gameSettings constNoise s2 :=
  draw_emissions mainGame gameSettings constNoise [] (by decide) (by decide)
    (cacheWF_nil gameSettings constNoise)

/-- C5 witness: the classifier agreement instantiated at the height 1/2. -/
theorem getTerrain_eq_terrainSpec_witness :
    getTerrain (some (1/2)) = terrainSpec (some (1/2)) :=
  getTerrain_eq_terrainSpec (some (1/2))

/-- C8 witness: the round trip instantiated at the game `main` constructs and
the world point (3, 7). -/
theorem toWorldCoord_toScreenCoord_inverse_witness :
    toWorldCoord mainGame (toScreenCoord mainGame (3, 7)) = (3, 7)
      ∧ toScreenCoord mainGame (toWorldCoord mainGame (3, 7)) = (3, 7) :=
  toWorldCoord_toScreenCoord_inverse mainGame (3, 7)

/-- C9 witness: the fault characterization instantiated at a concrete matrix
and index. -/
theorem matrix_At_Set_fault_iff_witness :
    ((Matrix.mk 2 2 [10, 11, 12, 13] : Matrix Nat).At 5 0 = none
        ↔ ((0 : Int) * (Matrix.mk 2 2 [10, 11, 12, 13] : Matrix Nat).w + 5 < 0
            ∨ (((Matrix.mk 2 2 [10, 11, 12, 13] : Matrix Nat).data.length : Int)
                ≤ 0 * (Matrix.mk 2 2 [10, 11, 12, 13] : Matrix Nat).w + 5)))
      ∧ ((Matrix.mk 2 2 [10, 11, 12, 13] : Matrix Nat).Set 5 0 99 = none
        ↔ ((0 : Int) * (Matrix.mk 2 2 [10, 11, 12, 13] : Matrix Nat).w + 5 < 0
            ∨ (((Matrix.mk 2 2 [10, 11, 12, 13] : Matrix Nat).data.length : Int)
                ≤ 0 * (Matrix.mk 2 2 [10, 11, 12, 13] : Matrix Nat).w + 5))) :=
  matrix_At_Set_fault_iff (Matrix.mk 2 2 [10, 11, 12, 13] : Matrix Nat) 5 0 99

end GWalk
